import Mathlib

/-!
# Verification of the `ordered_vec` generational slot registry

Shallow embedding of the Rust sources under `src/`:
* `src/utils.rs` — the 64-bit handle codec (`to_id`, `from_id`);
* `src/ordered_vec.rs` — the single-threaded tombstone-reuse container
  `OrderedVec<T>`;
* `src/shareable_ordered_vec.rs` — the thread-shareable variant with its
  atomic reservation counters;
* `src/atomic/atomic_indexed_ordered_vec.rs` — the deferred-command variant
  whose `update` drains and replays buffered commands.

Machine integers are modelled as `Nat`, with `% 2 ^ 32` / `% 2 ^ 64`
inserted exactly where Rust's fixed-width behaviour is observable (the
codec).  Rust code paths that panic (`unwrap` on `None`, out-of-range
`get_mut`) are modelled by returning `none`.  Atomic fetch-adds are
modelled by explicit state passing, i.e. reservation sequences are
interleavings serialised in counter-ordinal order.
-/

/-- Embedding of `to_id` (src/utils.rs).  The source computes
`id |= (pair.version << 32) as u64` where `pair.version : u32`: a `u32`
shifted by its full bit width.  In release builds Rust masks the shift
amount (`32 % 32 = 0`), so the generation is OR-ed into the *low* 32 bits
(debug builds panic on the overflowing shift).  `pair.index` is a `usize`
truncated to `u32` by `IndexPair::new`. -/
def to_id (index version : ℕ) : ℕ :=
  (index % 2 ^ 32) ||| ((version % 2 ^ 32) <<< (32 % 32))

/-- Embedding of `from_id` (src/utils.rs): the index is recovered from the
low 32 bits via `((id << 32) >> 32) as u32` (a `u64` shift, wrapping mod
`2^64`), the version from the high 32 bits via `(id >> 32) as u32`. -/
def from_id (id : ℕ) : ℕ × ℕ :=
  (((id <<< 32) % 2 ^ 64) >>> 32, (id >>> 32) % 2 ^ 32)

/-- The slot store of `OrderedVec<T>` (src/ordered_vec.rs): positional
slots `(value, generation)` plus the `missing` stack of free indices.
`missing` is kept in the same orientation as the Rust `Vec`: index `0` is
the bottom, `push`/`pop` act on the last element. -/
structure OrderedVec (T : Type) where
  vec : List (Option T × ℕ)
  missing : List ℕ
deriving DecidableEq

/-- Embedding of `OrderedVec::push_shove`.  Returns `none` where the Rust
code panics (`self.vec.get_mut(index).unwrap()` with an out-of-range
tombstone index); otherwise the updated store and the returned `u64` id. -/
def OrderedVec.push_shove {T : Type} (s : OrderedVec T) (elem : T) :
    Option (OrderedVec T × ℕ) :=
  match s.missing.getLast? with
  | none =>
      some ({ vec := s.vec ++ [(some elem, 0)], missing := s.missing },
        to_id s.vec.length 0)
  | some index =>
      match s.vec[index]? with
      | none => none
      | some (_, old_version) =>
          some ({ vec := s.vec.set index (some elem, old_version + 1),
                  missing := s.missing.dropLast },
            to_id index (old_version + 1))

/-- Embedding of `OrderedVec::get_next_index`. -/
def OrderedVec.get_next_index {T : Type} (s : OrderedVec T) : ℕ :=
  match s.missing.getLast? with
  | none => s.vec.length
  | some index => index

/-- Embedding of `OrderedVec::get_next_id` (`none` where the source's
`self.vec.get(index).unwrap()` panics). -/
def OrderedVec.get_next_id {T : Type} (s : OrderedVec T) : Option ℕ :=
  match s.missing.getLast? with
  | none => some (to_id s.vec.length 0)
  | some index =>
      match s.vec[index]? with
      | none => none
      | some (_, version) => some (to_id index (version + 1))

/-- Embedding of `OrderedVec::remove`.  Note that the source pushes the
decoded index onto `missing` *before* the range and version checks. -/
def OrderedVec.remove {T : Type} (s : OrderedVec T) (id : ℕ) :
    Option T × OrderedVec T :=
  match s.vec[(from_id id).1]? with
  | none => (none, ⟨s.vec, s.missing ++ [(from_id id).1]⟩)
  | some (elem, version) =>
      if (from_id id).2 ≠ version then
        (none, ⟨s.vec, s.missing ++ [(from_id id).1]⟩)
      else
        (elem, ⟨s.vec.set (from_id id).1 (none, version),
          s.missing ++ [(from_id id).1]⟩)

/-- Embedding of `OrderedVec::remove_index` (no version check). -/
def OrderedVec.remove_index {T : Type} (s : OrderedVec T) (index : ℕ) :
    Option T × OrderedVec T :=
  match s.vec[index]? with
  | none => (none, ⟨s.vec, s.missing ++ [index]⟩)
  | some (elem, version) =>
      (elem, ⟨s.vec.set index (none, version), s.missing ++ [index]⟩)

/-- Embedding of `OrderedVec::get`. -/
def OrderedVec.get {T : Type} (s : OrderedVec T) (id : ℕ) : Option T :=
  match s.vec[(from_id id).1]? with
  | none => none
  | some (cell, version) => if (from_id id).2 = version then cell else none

/-- Embedding of `OrderedVec::count`. -/
def OrderedVec.count {T : Type} (s : OrderedVec T) : ℕ :=
  s.vec.length - s.missing.length

/-- Embedding of `OrderedVec::clear`: returns the drained cells and the
emptied store. -/
def OrderedVec.clear {T : Type} (s : OrderedVec T) :
    List (Option T) × OrderedVec T :=
  (s.vec.map (·.1), { vec := [], missing := [] })

/-- The ids collected by the scan phase of `OrderedVec::my_drain`:
occupied slots whose `(id, value)` passes the filter. -/
def OrderedVec.drain_ids {T : Type} (s : OrderedVec T) (f : ℕ → T → Bool) :
    List ℕ :=
  s.vec.enum.filterMap fun p =>
    match p.2.1 with
    | some v => if f (to_id p.1 p.2.2) v then some (to_id p.1 p.2.2) else none
    | none => none

/-- The removal phase of `OrderedVec::my_drain`: `self.remove(id).unwrap()`
for each collected id, in order; `none` models the `unwrap` panic. -/
def OrderedVec.remove_all {T : Type} (s : OrderedVec T) :
    List ℕ → Option (OrderedVec T)
  | [] => some s
  | id :: rest =>
      match s.remove id with
      | (some _, s') => s'.remove_all rest
      | (none, _) => none

/-- Embedding of the state effect of `OrderedVec::my_drain` (the iterator's
yielded pairs are not needed by any claim). -/
def OrderedVec.my_drain {T : Type} (s : OrderedVec T) (f : ℕ → T → Bool) :
    Option (OrderedVec T) :=
  s.remove_all (s.drain_ids f)

/-- Slot `i` of the store holds no value (it is a tombstone). -/
def OrderedVec.slot_free {T : Type} (s : OrderedVec T) (i : ℕ) : Prop :=
  ∃ g, s.vec[i]? = some (none, g)

/-- A handle is stale for a store in the claim's sense: its decoded index
is out of range, or its decoded generation differs from the stored slot's
generation. -/
def OrderedVec.stale {T : Type} (s : OrderedVec T) (id : ℕ) : Bool :=
  match s.vec[(from_id id).1]? with
  | some (_, version) => (from_id id).2 != version
  | none => true

/-- The store invariant claimed by the spec: `missing` contains exactly the
indices whose slot value is `None`, with no duplicates. -/
def OrderedVec.Inv {T : Type} (s : OrderedVec T) : Prop :=
  s.missing.Nodup ∧ ∀ i, i ∈ s.missing ↔ s.slot_free i

/-- Boolean test for a tombstone slot. -/
def OrderedVec.free_at {T : Type} (s : OrderedVec T) (i : ℕ) : Bool :=
  match s.vec[i]? with
  | some (none, _) => true
  | _ => false

/-- The canonical list of tombstone indices, in ascending order. -/
def OrderedVec.free_idx {T : Type} (s : OrderedVec T) : List ℕ :=
  (List.range s.vec.length).filter s.free_at

/-- States reachable from `OrderedVec::new()` by the public operations,
exactly as the claim lists them (panicking runs are not states). -/
inductive OrderedVec.Reaches {T : Type} : OrderedVec T → Prop where
  | new : Reaches ⟨[], []⟩
  | push_shove {s s' : OrderedVec T} {id : ℕ} (v : T) :
      Reaches s → s.push_shove v = some (s', id) → Reaches s'
  | remove {s : OrderedVec T} (id : ℕ) :
      Reaches s → Reaches (s.remove id).2
  | remove_index {s : OrderedVec T} (i : ℕ) :
      Reaches s → Reaches (s.remove_index i).2
  | clear {s : OrderedVec T} :
      Reaches s → Reaches s.clear.2
  | my_drain {s s' : OrderedVec T} (f : ℕ → T → Bool) :
      Reaches s → s.my_drain f = some s' → Reaches s'

/-- Reachability restricted to removals that succeed (return `Some`),
i.e. that target a currently valid handle / occupied index. -/
inductive OrderedVec.ReachesValid {T : Type} : OrderedVec T → Prop where
  | new : ReachesValid ⟨[], []⟩
  | push_shove {s s' : OrderedVec T} {id : ℕ} (v : T) :
      ReachesValid s → s.push_shove v = some (s', id) → ReachesValid s'
  | remove {s : OrderedVec T} {v : T} (id : ℕ) :
      ReachesValid s → (s.remove id).1 = some v → ReachesValid (s.remove id).2
  | remove_index {s : OrderedVec T} {v : T} (i : ℕ) :
      ReachesValid s → (s.remove_index i).1 = some v →
      ReachesValid (s.remove_index i).2
  | clear {s : OrderedVec T} :
      ReachesValid s → ReachesValid s.clear.2
  | my_drain {s s' : OrderedVec T} (f : ℕ → T → Bool) :
      ReachesValid s → s.my_drain f = some s' → ReachesValid s'

/-- The store of `ShareableOrderedVec<T>` (src/shareable_ordered_vec.rs):
slots carry an optional generation (`None` = never initialised), and the
atomic `counter` / `length` fields are explicit state. -/
structure ShareableOrderedVec (T : Type) where
  vec : List (Option T × Option ℕ)
  missing : List ℕ
  counter : ℕ
  length : ℕ
deriving DecidableEq

/-- The version computed by `get_next_id_increment` for a chosen index:
the slot's stored generation (0 when uninitialised) plus one if the slot
exists, else 0. -/
def ShareableOrderedVec.next_version {T : Type} (s : ShareableOrderedVec T)
    (index : ℕ) : ℕ :=
  match s.vec[index]? with
  | some (_, og) => og.getD 0 + 1
  | none => 0

/-- Embedding of `ShareableOrderedVec::get_next_id_increment`: the atomic
`counter.fetch_add(1)` yields this call's ordinal; the tombstone stack is
indexed from the front by `missing.get(ctr)`, falling back to an atomic
`length.fetch_add(1)`. -/
def ShareableOrderedVec.get_next_id_increment {T : Type}
    (s : ShareableOrderedVec T) : ℕ × ShareableOrderedVec T :=
  match s.missing[s.counter]? with
  | some index =>
      (to_id index (s.next_version index), { s with counter := s.counter + 1 })
  | none =>
      (to_id s.length (s.next_version s.length),
        { s with counter := s.counter + 1, length := s.length + 1 })

/-- The store after `n` sequential reservations (counter ordinals applied
in order, the serialisation of the epoch's atomics). -/
def ShareableOrderedVec.reserve_state {T : Type} (s : ShareableOrderedVec T) :
    ℕ → ShareableOrderedVec T
  | 0 => s
  | n + 1 => (ShareableOrderedVec.reserve_state s n).get_next_id_increment.2

/-- The handle returned by the reservation with counter ordinal `n`. -/
def ShareableOrderedVec.reserve_id {T : Type} (s : ShareableOrderedVec T)
    (n : ℕ) : ℕ :=
  (s.reserve_state n).get_next_id_increment.1

/-- Embedding of `ShareableOrderedVec::insert`.  When the decoded index is
in range the slot is overwritten (generation initialised to 0 or bumped)
and the previous value returned; otherwise the vector is padded with
uninitialised cells, the element appended with the handle's version, the
counter swapped to 0 and that many tombstones dropped from the front of
`missing`, and `length` stored back as the new vector length. -/
def ShareableOrderedVec.insert {T : Type} (s : ShareableOrderedVec T)
    (id : ℕ) (elem : T) : Option T × ShareableOrderedVec T :=
  if (from_id id).1 < s.vec.length then
    match s.vec[(from_id id).1]? with
    | some (old_val, none) =>
        (old_val,
          { s with vec := s.vec.set (from_id id).1 (some elem, some 0) })
    | some (old_val, some g) =>
        (old_val,
          { s with vec := s.vec.set (from_id id).1 (some elem, some (g + 1)) })
    | none => (none, s)
  else
    let idx := (from_id id).1
    let padded := s.vec ++ List.replicate (idx - s.vec.length) (none, none)
    let new_vec := padded ++ [(some elem, some (from_id id).2)]
    let old_ctr := s.counter
    let new_missing :=
      if old_ctr = 0 then s.missing
      else if s.missing.length ≤ old_ctr then []
      else s.missing.drop old_ctr
    (none, { vec := new_vec, missing := new_missing, counter := 0,
             length := new_vec.length })

/-- Message type of the deferred command log
(src/atomic/message.rs). -/
inductive AtomicIndexedMessageType (T : Type) where
  | Add : T → ℕ → AtomicIndexedMessageType T
  | Remove : ℕ → AtomicIndexedMessageType T
deriving DecidableEq

/-- A buffered command stamped with its sequence number
(src/atomic/command.rs). -/
structure AtomicIndexedCommand (T : Type) where
  command_id : ℕ
  message : AtomicIndexedMessageType T
deriving DecidableEq

/-- The state of `AtomicIndexedOrderedVec<T>`
(src/atomic/atomic_indexed_ordered_vec.rs); the sparse bitfield is a
function from indices to validity bits. -/
structure AtomicIndexedOrderedVec (T : Type) where
  vec : List (Option T)
  missing : List ℕ
  counter : ℕ
  length : ℕ
  command_counter : ℕ
  empty_count : ℕ
  bitfield : ℕ → Bool

/-- Embedding of `AtomicIndexedOrderedVec::push_shove`, creation-thread
branch (the branch `update` runs): pop a tombstone or append, and mark the
cell valid in the bitfield; `none` models the panic of
`vec.get_mut(idx).unwrap()` on an out-of-range tombstone. -/
def AtomicIndexedOrderedVec.push_shove {T : Type}
    (s : AtomicIndexedOrderedVec T) (elem : T) :
    Option (AtomicIndexedOrderedVec T) :=
  match s.missing.getLast? with
  | none =>
      some { s with
        vec := s.vec ++ [some elem]
        bitfield := fun b => if b = s.vec.length then true else s.bitfield b }
  | some idx =>
      match s.vec[idx]? with
      | none => none
      | some _ =>
          some { s with
            vec := s.vec.set idx (some elem)
            missing := s.missing.dropLast
            bitfield := fun b => if b = idx then true else s.bitfield b }

/-- Embedding of `AtomicIndexedOrderedVec::remove`, creation-thread branch:
push the index onto `missing`, bump the empty counter, clear the bit. -/
def AtomicIndexedOrderedVec.remove {T : Type}
    (s : AtomicIndexedOrderedVec T) (idx : ℕ) : AtomicIndexedOrderedVec T :=
  { s with
    missing := s.missing ++ [idx]
    empty_count := s.empty_count + 1
    bitfield := fun b => if b = idx then false else s.bitfield b }

/-- One step of the replay loop in `AtomicIndexedOrderedVec::update`:
`Add(elem, id)` is applied via `push_shove(elem)` (the recorded index is
ignored by the source), `Remove(id)` via `remove(id)`. -/
def AtomicIndexedOrderedVec.apply_command {T : Type}
    (s : AtomicIndexedOrderedVec T) (c : AtomicIndexedCommand T) :
    Option (AtomicIndexedOrderedVec T) :=
  match c.message with
  | AtomicIndexedMessageType.Add elem _ => s.push_shove elem
  | AtomicIndexedMessageType.Remove idx => some (s.remove idx)

/-- The atomics `update` resets before replaying. -/
def AtomicIndexedOrderedVec.reset_atomics {T : Type}
    (s : AtomicIndexedOrderedVec T) : AtomicIndexedOrderedVec T :=
  { s with command_counter := 0, counter := 0 }

/-- The slot-store component (`vec` and `missing`) of the state. -/
def AtomicIndexedOrderedVec.store {T : Type}
    (s : AtomicIndexedOrderedVec T) : List (Option T) × List ℕ :=
  (s.vec, s.missing)

/-- Embedding of `AtomicIndexedOrderedVec::update` on the multiset of
buffered commands, given in arrival order: reset the atomics, sort the
buffer ascending by `command_id` (Rust's stable `sort_by`), replay each
command, then store the vector length back into `length`. -/
def AtomicIndexedOrderedVec.update {T : Type}
    (s : AtomicIndexedOrderedVec T) (cmds : List (AtomicIndexedCommand T)) :
    Option (AtomicIndexedOrderedVec T) :=
  ((List.insertionSort (fun a b => a.command_id ≤ b.command_id) cmds).foldlM
      AtomicIndexedOrderedVec.apply_command s.reset_atomics).map
    fun s' => { s' with length := s'.vec.length }

/-! ## Helper lemmas -/

theorem to_id_eq (index version : ℕ) :
    to_id index version = (index % 2 ^ 32) ||| (version % 2 ^ 32) := by
  simp [to_id]

theorem from_id_eq (id : ℕ) :
    from_id id = (id % 2 ^ 32, (id >>> 32) % 2 ^ 32) := by
  unfold from_id
  congr 1
  rw [Nat.shiftLeft_eq, Nat.shiftRight_eq_div_pow]
  have h64 : (2 : ℕ) ^ 64 = 2 ^ 32 * 2 ^ 32 := by norm_num
  rw [h64, Nat.mul_mod_mul_right]
  simp

theorem OrderedVec.push_shove_empty {T : Type} (s : OrderedVec T) (v : T)
    (h : s.missing.getLast? = none) :
    s.push_shove v =
      some (⟨s.vec ++ [(some v, 0)], s.missing⟩, to_id s.vec.length 0) := by
  simp only [OrderedVec.push_shove, h]

theorem OrderedVec.push_shove_reuse {T : Type} (s : OrderedVec T) (v : T)
    {index g : ℕ} {c : Option T} (h : s.missing.getLast? = some index)
    (hg : s.vec[index]? = some (c, g)) :
    s.push_shove v =
      some (⟨s.vec.set index (some v, g + 1), s.missing.dropLast⟩,
        to_id index (g + 1)) := by
  simp only [OrderedVec.push_shove, h, hg]

theorem OrderedVec.push_shove_panic {T : Type} (s : OrderedVec T) (v : T)
    {index : ℕ} (h : s.missing.getLast? = some index)
    (hg : s.vec[index]? = none) :
    s.push_shove v = none := by
  simp only [OrderedVec.push_shove, h, hg]

theorem OrderedVec.get_next_id_empty {T : Type} (s : OrderedVec T)
    (h : s.missing.getLast? = none) :
    s.get_next_id = some (to_id s.vec.length 0) := by
  simp only [OrderedVec.get_next_id, h]

theorem OrderedVec.get_next_id_reuse {T : Type} (s : OrderedVec T)
    {index g : ℕ} {c : Option T} (h : s.missing.getLast? = some index)
    (hg : s.vec[index]? = some (c, g)) :
    s.get_next_id = some (to_id index (g + 1)) := by
  simp only [OrderedVec.get_next_id, h, hg]

theorem OrderedVec.get_next_id_panic {T : Type} (s : OrderedVec T)
    {index : ℕ} (h : s.missing.getLast? = some index)
    (hg : s.vec[index]? = none) :
    s.get_next_id = none := by
  simp only [OrderedVec.get_next_id, h, hg]

theorem OrderedVec.get_next_index_empty {T : Type} (s : OrderedVec T)
    (h : s.missing.getLast? = none) : s.get_next_index = s.vec.length := by
  simp only [OrderedVec.get_next_index, h]

theorem OrderedVec.get_next_index_reuse {T : Type} (s : OrderedVec T)
    {index : ℕ} (h : s.missing.getLast? = some index) :
    s.get_next_index = index := by
  simp only [OrderedVec.get_next_index, h]

/-! ## Claim theorems -/

/-- C3: the claim states that the handle codec is exactly invertible, with
the generation packed into the high 32 bits.  The code is wrong: the `u32`
shift `pair.version << 32` in `to_id` does not reach the high bits (it is
a masked no-op shift in release builds and a panic in debug builds), so
`to_id 0 1 = 1` and decoding returns `(1, 0)`, not `(0, 1)`.  This
contradicts the repository's own tests (`id_test`, `iter_test` assert
`0u64 | (1u64 << 32)`-style packing) and the field comments in
`src/utils.rs` (`version`: "Last 32 bits"). -/
theorem to_id_misplaces_version :
    to_id 0 1 = 1 ∧ from_id (to_id 0 1) ≠ (0, 1) := by decide

/-- C5: the insert/get round-trip fails on tombstone reuse because of the
`to_id` defect.  Starting from the reachable store `[(none, 0)]` with
tombstone stack `[0]` (obtained by `push_shove 5` then `remove` of its
handle), `push_shove 7` stores the value at index 0 with generation 1 but
returns the garbled handle `to_id 0 1 = 1`, and `get` on that handle
returns `none`, not `some 7` as the claim requires. -/
theorem reuse_roundtrip_get_fails :
    OrderedVec.push_shove (⟨[], []⟩ : OrderedVec Nat) 5 =
        some (⟨[(some 5, 0)], []⟩, to_id 0 0) ∧
    (⟨[(some 5, 0)], []⟩ : OrderedVec Nat).remove (to_id 0 0) =
        (some 5, ⟨[(none, 0)], [0]⟩) ∧
    OrderedVec.push_shove (⟨[(none, 0)], [0]⟩ : OrderedVec Nat) 7 =
        some (⟨[(some 7, 1)], []⟩, to_id 0 1) ∧
    (⟨[(some 7, 1)], []⟩ : OrderedVec Nat).get (to_id 0 1) = none := by
  decide

/-- C8: after removing the non-last element at index 1 (handle
`to_id 1 0`), the next `push_shove` reuses index 1 with generation 1, but
the returned handle *equals* the removed one as a `u64`
(`to_id 1 1 = 1 ||| 1 = 1 = to_id 1 0`), contradicting the claim's
distinctness — and the repository's own test `test()`, whose
`assert_ne!(idx_9, idx_2)` fails on this very sequence.  The root cause is
the `to_id` shift defect. -/
theorem reused_handle_equals_removed :
    (⟨[(some 5, 0)], []⟩ : OrderedVec Nat).push_shove 2 =
        some (⟨[(some 5, 0), (some 2, 0)], []⟩, to_id 1 0) ∧
    (⟨[(some 5, 0), (some 2, 0)], []⟩ : OrderedVec Nat).remove (to_id 1 0) =
        (some 2, ⟨[(some 5, 0), (none, 0)], [1]⟩) ∧
    (⟨[(some 5, 0), (none, 0)], [1]⟩ : OrderedVec Nat).push_shove 9 =
        some (⟨[(some 5, 0), (some 9, 1)], []⟩, to_id 1 0) := by
  decide

/-- C2: two reservations with distinct counter ordinals can return the
same handle.  In the reachable epoch state with store `[(none, some 0)]`,
tombstone stack `[0]`, counter 0, length 1 (reached by `insert(0, x)` then
`remove(0)`), ordinal 0 reserves the tombstone as `to_id 0 1 = 1` while
ordinal 1 takes the fresh-append path as `to_id 1 0 = 1`: the garbled
`to_id` packing makes the two handles collide, violating the claim's
pairwise distinctness. -/
theorem reservation_handles_collide :
    (⟨[(none, some 0)], [0], 0, 1⟩ : ShareableOrderedVec Nat).reserve_id 0 =
      (⟨[(none, some 0)], [0], 0, 1⟩ : ShareableOrderedVec Nat).reserve_id 1 := by
  decide

/-- C1 counterexample: the claim maps reservation ordinal `i` to the
tombstone `missing[len(missing) - 1 - i]` (i-th from the top).  In the
epoch state with slots `[(none, some 0), (some 5, some 0), (none, some 3)]`,
`missing = [0, 2]`, counter 0, length 3, the claim expects reservation 0 to
target index `missing[1] = 2` with generation `3 + 1 = 4`; the code indexes
the stack from the bottom (`missing.get(ctr)`), targets index 0 with
generation 1, and the returned handle decodes to `(1, 0)` (further garbled
by the `to_id` defect), not `(2, 4)`. -/
theorem reservation_top_indexing_false :
    from_id ((⟨[(none, some 0), (some 5, some 0), (none, some 3)],
        [0, 2], 0, 3⟩ : ShareableOrderedVec Nat).reserve_id 0) = (1, 0) ∧
    ((1 : ℕ), (0 : ℕ)) ≠ ((2 : ℕ), (4 : ℕ)) := by
  decide

/-- C6 counterexample: a stale `remove` is *not* a no-op on the store.
Removing with the stale handle `2 ^ 32` (index 0, generation 1) from the
store `[(some 5, 0)]` with empty tombstone stack returns `None` but pushes
index 0 onto `missing`, so the store changes. -/
theorem stale_remove_mutates_store :
    ((⟨[(some 5, 0)], []⟩ : OrderedVec Nat).remove (2 ^ 32)).2 ≠
      ⟨[(some 5, 0)], []⟩ := by
  decide

/-- C6 (amended): for every store and every stale handle (decoded index
out of range, or decoded generation differing from the stored slot's
generation), `remove` returns `None` and leaves the slot array unchanged,
but it *does* append the decoded index to the `missing` list, because the
source pushes onto `missing` before performing the range and generation
checks. -/
theorem remove_stale_appends_missing {T : Type} (s : OrderedVec T) (id : ℕ)
    (hstale : s.stale id = true) :
    s.remove id = (none, ⟨s.vec, s.missing ++ [(from_id id).1]⟩) := by
  unfold OrderedVec.remove
  cases hg : s.vec[(from_id id).1]? with
  | none => rfl
  | some cell =>
      obtain ⟨c, ver⟩ := cell
      simp only [OrderedVec.stale, hg, bne_iff_ne] at hstale
      simp only [hg]
      rw [if_pos hstale]

theorem remove_stale_appends_missing_witness :
    (⟨[(some 5, 0)], []⟩ : OrderedVec Nat).stale (2 ^ 32) = true ∧
    (⟨[(some 5, 0)], []⟩ : OrderedVec Nat).remove (2 ^ 32) =
      (none, ⟨[(some 5, 0)], [0]⟩) :=
  ⟨by decide,
    remove_stale_appends_missing (⟨[(some 5, 0)], []⟩ : OrderedVec Nat)
      (2 ^ 32) (by decide)⟩

/-- C9 counterexample: applying `insert` to a handle whose decoded index
holds an occupied slot silently replaces the occupant.  On the store
`[(some 5, some 0)]`, `insert (to_id 0 0) 7` leaves the slot holding
`some 7` with a bumped generation — the stored value *is* replaced with
`elem`, contrary to the claim. -/
theorem insert_occupied_overwrites_value :
    ((⟨[(some 5, some 0)], [], 0, 1⟩ : ShareableOrderedVec Nat).insert
        (to_id 0 0) 7).2.vec = [(some 7, some 1)] := by
  decide

/-- C9 (amended): `insert` on an occupied in-range slot replaces the
stored value with `elem`, bumps the slot's generation, and returns the
previous occupant `Some(old)`, so the overwrite is detectable from the
return value rather than surfaced as a fatal error. -/
theorem insert_occupied_returns_old {T : Type} (s : ShareableOrderedVec T)
    (id : ℕ) (elem v : T) (g : ℕ)
    (hocc : s.vec[(from_id id).1]? = some (some v, some g)) :
    s.insert id elem =
      (some v,
        { s with vec := s.vec.set (from_id id).1 (some elem, some (g + 1)) }) := by
  have hlt : (from_id id).1 < s.vec.length := by
    rcases List.getElem?_eq_some_iff.mp hocc with ⟨hl, -⟩
    exact hl
  unfold ShareableOrderedVec.insert
  rw [if_pos hlt, hocc]

theorem insert_occupied_returns_old_witness :
    (⟨[(some 5, some 0)], [], 0, 1⟩ :
        ShareableOrderedVec Nat).vec[(from_id (to_id 0 0)).1]? =
      some (some 5, some 0) ∧
    (⟨[(some 5, some 0)], [], 0, 1⟩ : ShareableOrderedVec Nat).insert
        (to_id 0 0) 7 = (some 5, ⟨[(some 7, some 1)], [], 0, 1⟩) :=
  ⟨by decide,
    insert_occupied_returns_old
      (⟨[(some 5, some 0)], [], 0, 1⟩ : ShareableOrderedVec Nat)
      (to_id 0 0) 7 5 0 (by decide)⟩

/-- C10: `get_next_id` predicts exactly the handle the next `push_shove`
returns (as `Option`s, agreeing also on the panic cases), and the inserted
value lands at the slot predicted by `get_next_index`.  Both prediction
functions are pure reads (`&self` in the source), embedded as functions of
the unchanged state. -/
theorem get_next_predicts_push_shove {T : Type} (s : OrderedVec T) (v : T) :
    s.get_next_id = (s.push_shove v).map (fun p => p.2) ∧
    ∀ s' id, s.push_shove v = some (s', id) →
      (s'.vec[s.get_next_index]?).map (fun c => c.1) = some (some v) := by
  cases h : s.missing.getLast? with
  | none =>
      constructor
      · rw [s.get_next_id_empty h, s.push_shove_empty v h]
        rfl
      · intro s' id hps
        rw [s.push_shove_empty v h] at hps
        simp only [Option.some.injEq, Prod.mk.injEq] at hps
        obtain ⟨h1, -⟩ := hps
        subst h1
        rw [s.get_next_index_empty h]
        simp [List.getElem?_concat_length]
  | some index =>
      cases hg : s.vec[index]? with
      | none =>
          constructor
          · rw [s.get_next_id_panic h hg, s.push_shove_panic v h hg]
            rfl
          · intro s' id hps
            rw [s.push_shove_panic v h hg] at hps
            exact absurd hps (by simp)
      | some cell =>
          obtain ⟨c, g⟩ := cell
          constructor
          · rw [s.get_next_id_reuse h hg, s.push_shove_reuse v h hg]
            rfl
          · intro s' id hps
            rw [s.push_shove_reuse v h hg] at hps
            simp only [Option.some.injEq, Prod.mk.injEq] at hps
            obtain ⟨h1, -⟩ := hps
            subst h1
            rw [s.get_next_index_reuse h]
            have hlt : index < s.vec.length := by
              rcases List.getElem?_eq_some_iff.mp hg with ⟨hl, -⟩
              exact hl
            simp [List.getElem?_set_self hlt]

theorem get_next_predicts_push_shove_witness :
    (⟨[(some 3, 2), (none, 0)], [1]⟩ : OrderedVec Nat).get_next_id =
      ((⟨[(some 3, 2), (none, 0)], [1]⟩ : OrderedVec Nat).push_shove 8).map
        (fun p => p.2) ∧
    ((⟨[(some 3, 2), (some 8, 1)], []⟩ :
        OrderedVec Nat).vec[(⟨[(some 3, 2), (none, 0)], [1]⟩ :
        OrderedVec Nat).get_next_index]?).map
      (fun c => c.1) = some (some 8) :=
  ⟨(get_next_predicts_push_shove (⟨[(some 3, 2), (none, 0)], [1]⟩ :
      OrderedVec Nat) 8).1,
   (get_next_predicts_push_shove (⟨[(some 3, 2), (none, 0)], [1]⟩ :
      OrderedVec Nat) 8).2 ⟨[(some 3, 2), (some 8, 1)], []⟩ (to_id 1 1)
     (by decide)⟩

theorem ShareableOrderedVec.get_next_id_increment_tombstone {T : Type}
    (s : ShareableOrderedVec T) {idx : ℕ}
    (h : s.missing[s.counter]? = some idx) :
    s.get_next_id_increment =
      (to_id idx (s.next_version idx), { s with counter := s.counter + 1 }) := by
  simp only [ShareableOrderedVec.get_next_id_increment, h]

theorem ShareableOrderedVec.get_next_id_increment_fresh {T : Type}
    (s : ShareableOrderedVec T) (h : s.missing[s.counter]? = none) :
    s.get_next_id_increment =
      (to_id s.length (s.next_version s.length),
        { s with counter := s.counter + 1, length := s.length + 1 }) := by
  simp only [ShareableOrderedVec.get_next_id_increment, h]

/-- Through a reservation epoch started with counter 0, the store and
tombstone stack never change, the counter equals the number of
reservations granted, and the length counter has advanced by the number
of fresh-append reservations. -/
theorem ShareableOrderedVec.reserve_state_spec {T : Type}
    (s : ShareableOrderedVec T) (hctr : s.counter = 0) :
    ∀ n, (s.reserve_state n).vec = s.vec ∧
      (s.reserve_state n).missing = s.missing ∧
      (s.reserve_state n).counter = n ∧
      (s.reserve_state n).length = s.length + (n - s.missing.length) := by
  intro n
  induction n with
  | zero => exact ⟨rfl, rfl, hctr, by simp [ShareableOrderedVec.reserve_state]⟩
  | succ n ih =>
      obtain ⟨hv, hm, hc, hl⟩ := ih
      have hget : (s.reserve_state n).missing[(s.reserve_state n).counter]? =
          s.missing[n]? := by rw [hm, hc]
      cases hmn : s.missing[n]? with
      | some idx =>
          have hlt : n < s.missing.length := by
            rcases List.getElem?_eq_some_iff.mp hmn with ⟨hl', -⟩
            exact hl'
          have heq := ShareableOrderedVec.get_next_id_increment_tombstone
            (s.reserve_state n) (by rw [hget, hmn])
          unfold ShareableOrderedVec.reserve_state
          rw [heq]
          dsimp only
          refine ⟨hv, hm, by rw [hc], ?_⟩
          rw [hl]
          omega
      | none =>
          have hge : s.missing.length ≤ n := List.getElem?_eq_none_iff.mp hmn
          have heq := ShareableOrderedVec.get_next_id_increment_fresh
            (s.reserve_state n) (by rw [hget, hmn])
          unfold ShareableOrderedVec.reserve_state
          rw [heq]
          dsimp only
          refine ⟨hv, hm, by rw [hc], ?_⟩
          rw [hl]
          omega

/-- C1 (amended): in an epoch starting with counter 0 and the length
counter equal to the store length, the reservation with ordinal `n`
targets the tombstone `missing[n]` — the n-th entry from the *bottom* of
the tombstone stack, not from the top as the claim stated — with
generation the slot's current generation (0 if uninitialised) plus one,
whenever `n < len(missing)`; otherwise it targets the fresh index
`length + (n - len(missing))` with generation 0.  The returned `u64` is
`to_id` of that pair (the encoding itself is garbled by the `to_id`
defect recorded separately). -/
theorem reservation_ordinal_mapping {T : Type} (s : ShareableOrderedVec T)
    (hctr : s.counter = 0) (hlen : s.length = s.vec.length) (n : ℕ) :
    (∀ idx cell og, s.missing[n]? = some idx →
        s.vec[idx]? = some (cell, og) →
        s.reserve_id n = to_id idx (og.getD 0 + 1)) ∧
    (s.missing.length ≤ n →
        s.reserve_id n = to_id (s.length + (n - s.missing.length)) 0) := by
  obtain ⟨hv, hm, hc, hl⟩ := ShareableOrderedVec.reserve_state_spec s hctr n
  constructor
  · intro idx cell og hmiss hslot
    unfold ShareableOrderedVec.reserve_id
    rw [ShareableOrderedVec.get_next_id_increment_tombstone
      (s.reserve_state n) (by rw [hm, hc]; exact hmiss)]
    simp only [ShareableOrderedVec.next_version, hv, hslot]
  · intro hle
    unfold ShareableOrderedVec.reserve_id
    rw [ShareableOrderedVec.get_next_id_increment_fresh
      (s.reserve_state n) (by rw [hm, hc]; exact List.getElem?_eq_none hle)]
    have hnone : (s.reserve_state n).vec[s.length + (n - s.missing.length)]? =
        none := by
      rw [hv, hlen]
      exact List.getElem?_eq_none (Nat.le_add_right _ _)
    simp only [ShareableOrderedVec.next_version, hl, hnone]

theorem reservation_ordinal_mapping_witness :
    (⟨[(none, some 0), (some 5, some 0), (none, some 3)],
        [0, 2], 0, 3⟩ : ShareableOrderedVec Nat).reserve_id 1 = to_id 2 4 ∧
    (⟨[(none, some 0), (some 5, some 0), (none, some 3)],
        [0, 2], 0, 3⟩ : ShareableOrderedVec Nat).reserve_id 3 = to_id 4 0 :=
  ⟨(reservation_ordinal_mapping (⟨[(none, some 0), (some 5, some 0),
      (none, some 3)], [0, 2], 0, 3⟩ : ShareableOrderedVec Nat) rfl rfl 1).1
      2 none (some 3) (by decide) (by decide),
   (reservation_ordinal_mapping (⟨[(none, some 0), (some 5, some 0),
      (none, some 3)], [0, 2], 0, 3⟩ : ShareableOrderedVec Nat) rfl rfl 3).2
      (by decide)⟩

/-- Two permutations of the same elements, both strictly sorted by a
numeric key, are equal. -/
theorem sorted_lt_key_unique {α : Type} (key : α → ℕ) {l₁ l₂ : List α}
    (hperm : l₁.Perm l₂)
    (h₁ : List.Sorted (fun a b => key a < key b) l₁)
    (h₂ : List.Sorted (fun a b => key a < key b) l₂) : l₁ = l₂ := by
  haveI : IsAntisymm α (fun a b => key a < key b) :=
    ⟨fun a b h h' => absurd h' (Nat.lt_asymm h)⟩
  exact List.eq_of_perm_of_sorted hperm h₁ h₂

/-- A list sorted by `≤` on a key whose key images are distinct is
strictly sorted by that key. -/
theorem sorted_le_key_strict {α : Type} (key : α → ℕ) {l : List α}
    (hs : List.Sorted (fun a b => key a ≤ key b) l)
    (hn : (l.map key).Nodup) :
    List.Sorted (fun a b => key a < key b) l := by
  have hne : l.Pairwise (fun a b => key a ≠ key b) := List.pairwise_map.mp hn
  exact List.Pairwise.imp₂ (fun a b hle hnome => lt_of_le_of_ne hle hnome)
    hs hne

theorem AtomicIndexedOrderedVec.push_shove_reset {T : Type}
    (s : AtomicIndexedOrderedVec T) (elem : T) :
    (s.reset_atomics).push_shove elem =
      (s.push_shove elem).map AtomicIndexedOrderedVec.reset_atomics := by
  unfold AtomicIndexedOrderedVec.push_shove AtomicIndexedOrderedVec.reset_atomics
  dsimp only
  cases h : s.missing.getLast? with
  | none => rfl
  | some idx =>
      dsimp only
      cases hg : s.vec[idx]? with
      | none => rfl
      | some c => rfl

theorem AtomicIndexedOrderedVec.apply_command_reset {T : Type}
    (s : AtomicIndexedOrderedVec T) (c : AtomicIndexedCommand T) :
    (s.reset_atomics).apply_command c =
      (s.apply_command c).map AtomicIndexedOrderedVec.reset_atomics := by
  cases c with
  | mk cid msg =>
      cases msg with
      | Add elem idx =>
          exact s.push_shove_reset elem
      | Remove idx => rfl

theorem AtomicIndexedOrderedVec.foldlM_apply_reset {T : Type} :
    ∀ (l : List (AtomicIndexedCommand T)) (s : AtomicIndexedOrderedVec T),
      l.foldlM AtomicIndexedOrderedVec.apply_command s.reset_atomics =
        (l.foldlM AtomicIndexedOrderedVec.apply_command s).map
          AtomicIndexedOrderedVec.reset_atomics := by
  intro l
  induction l with
  | nil => intro s; rfl
  | cons c rest ih =>
      intro s
      simp only [List.foldlM_cons]
      rw [AtomicIndexedOrderedVec.apply_command_reset]
      cases h : s.apply_command c with
      | none => rfl
      | some s' => simpa using ih s'

/-- C4: the commit cycle replays buffered commands in ascending
sequence-number order regardless of arrival order: for any arrival-order
buffer with pairwise-distinct sequence numbers, the slot store (`vec` and
`missing`) after `update` equals the store obtained by applying the same
commands directly, one by one, in the ascending-by-sequence order
`inOrder` (the spec's `drain_ordered` order).  The `Option` is `none`
exactly when some replayed command panics, identically on both sides. -/
theorem update_replays_in_sequence_order {T : Type}
    (s : AtomicIndexedOrderedVec T)
    (arrival inOrder : List (AtomicIndexedCommand T))
    (hnodup : (arrival.map (fun c => c.command_id)).Nodup)
    (hperm : inOrder.Perm arrival)
    (hsorted : List.Sorted (fun a b => a.command_id ≤ b.command_id) inOrder) :
    (s.update arrival).map AtomicIndexedOrderedVec.store =
      (inOrder.foldlM AtomicIndexedOrderedVec.apply_command s).map
        AtomicIndexedOrderedVec.store := by
  have hsorteq :
      List.insertionSort (fun a b => a.command_id ≤ b.command_id) arrival =
        inOrder := by
    haveI : IsTotal (AtomicIndexedCommand T)
        (fun a b => a.command_id ≤ b.command_id) :=
      ⟨fun a b => Nat.le_total _ _⟩
    haveI : IsTrans (AtomicIndexedCommand T)
        (fun a b => a.command_id ≤ b.command_id) :=
      ⟨fun a b c => Nat.le_trans⟩
    have hp := List.perm_insertionSort
      (fun a b : AtomicIndexedCommand T => a.command_id ≤ b.command_id) arrival
    have hs := List.sorted_insertionSort
      (fun a b : AtomicIndexedCommand T => a.command_id ≤ b.command_id) arrival
    have hn1 : ((List.insertionSort
        (fun a b : AtomicIndexedCommand T => a.command_id ≤ b.command_id)
        arrival).map (fun c => c.command_id)).Nodup :=
      ((hp.map (fun c => c.command_id)).nodup_iff).mpr hnodup
    have hn2 : (inOrder.map (fun c => c.command_id)).Nodup :=
      ((hperm.map (fun c => c.command_id)).nodup_iff).mpr hnodup
    exact sorted_lt_key_unique
      (fun c : AtomicIndexedCommand T => c.command_id)
      (hp.trans hperm.symm)
      (sorted_le_key_strict
        (fun c : AtomicIndexedCommand T => c.command_id) hs hn1)
      (sorted_le_key_strict
        (fun c : AtomicIndexedCommand T => c.command_id) hsorted hn2)
  unfold AtomicIndexedOrderedVec.update
  rw [hsorteq, AtomicIndexedOrderedVec.foldlM_apply_reset]
  cases hres : inOrder.foldlM AtomicIndexedOrderedVec.apply_command s with
  | none => rfl
  | some s' => rfl

theorem update_replays_in_sequence_order_witness :
    (([⟨3, AtomicIndexedMessageType.Add 30 0⟩,
          ⟨1, AtomicIndexedMessageType.Add 10 0⟩,
          ⟨2, AtomicIndexedMessageType.Add 20 0⟩] :
        List (AtomicIndexedCommand ℕ)).map (fun c => c.command_id)).Nodup ∧
      ((⟨[], [], 0, 0, 3, 0, fun _ => false⟩ :
          AtomicIndexedOrderedVec ℕ).update
        [⟨3, AtomicIndexedMessageType.Add 30 0⟩,
         ⟨1, AtomicIndexedMessageType.Add 10 0⟩,
         ⟨2, AtomicIndexedMessageType.Add 20 0⟩]).map
        AtomicIndexedOrderedVec.store =
      (([⟨1, AtomicIndexedMessageType.Add 10 0⟩,
          ⟨2, AtomicIndexedMessageType.Add 20 0⟩,
          ⟨3, AtomicIndexedMessageType.Add 30 0⟩] :
        List (AtomicIndexedCommand ℕ)).foldlM
          AtomicIndexedOrderedVec.apply_command
          (⟨[], [], 0, 0, 3, 0, fun _ => false⟩ :
            AtomicIndexedOrderedVec ℕ)).map
        AtomicIndexedOrderedVec.store :=
  ⟨by decide,
    update_replays_in_sequence_order
      (⟨[], [], 0, 0, 3, 0, fun _ => false⟩ : AtomicIndexedOrderedVec ℕ)
      [⟨3, AtomicIndexedMessageType.Add 30 0⟩,
       ⟨1, AtomicIndexedMessageType.Add 10 0⟩,
       ⟨2, AtomicIndexedMessageType.Add 20 0⟩]
      [⟨1, AtomicIndexedMessageType.Add 10 0⟩,
       ⟨2, AtomicIndexedMessageType.Add 20 0⟩,
       ⟨3, AtomicIndexedMessageType.Add 30 0⟩]
      (by decide) (by decide) (by decide)⟩

theorem OrderedVec.Inv_nil {T : Type} : (⟨[], []⟩ : OrderedVec T).Inv := by
  constructor
  · exact List.nodup_nil
  · intro i
    simp [OrderedVec.slot_free]

theorem OrderedVec.push_shove_inv {T : Type} {s s' : OrderedVec T} {id : ℕ}
    (v : T) (hInv : s.Inv) (h : s.push_shove v = some (s', id)) : s'.Inv := by
  obtain ⟨hnd, hmem⟩ := hInv
  cases hlast : s.missing.getLast? with
  | none =>
      have hnil : s.missing = [] := List.getLast?_eq_none_iff.mp hlast
      rw [s.push_shove_empty v hlast] at h
      simp only [Option.some.injEq, Prod.mk.injEq] at h
      obtain ⟨h1, -⟩ := h
      subst h1
      constructor
      · exact hnd
      · intro i
        constructor
        · intro hi
          rw [hnil] at hi
          cases hi
        · intro hfree
          obtain ⟨g, hg⟩ := hfree
          rcases lt_trichotomy i s.vec.length with hlt | heq | hgt
          · rw [List.getElem?_append_left hlt] at hg
            have := (hmem i).mpr ⟨g, hg⟩
            rw [hnil] at this
            cases this
          · subst heq
            rw [List.getElem?_concat_length] at hg
            simp at hg
          · have hlen : (s.vec ++ [(some v, 0)]).length ≤ i := by
              simp only [List.length_append, List.length_singleton]
              omega
            rw [List.getElem?_eq_none hlen] at hg
            cases hg
  | some index =>
      cases hidx : s.vec[index]? with
      | none =>
          rw [s.push_shove_panic v hlast hidx] at h
          cases h
      | some cell =>
          obtain ⟨c, g⟩ := cell
          rw [s.push_shove_reuse v hlast hidx] at h
          simp only [Option.some.injEq, Prod.mk.injEq] at h
          obtain ⟨h1, -⟩ := h
          subst h1
          have hmemsplit : s.missing.dropLast ++ [index] = s.missing :=
            List.dropLast_append_getLast? index (Option.mem_def.mpr hlast)
          have hnd' : (s.missing.dropLast ++ [index]).Nodup := by
            rw [hmemsplit]
            exact hnd
          have hnotin : index ∉ s.missing.dropLast :=
            fun hin => List.disjoint_of_nodup_append hnd' hin (by simp)
          constructor
          · exact (List.dropLast_sublist s.missing).nodup hnd
          · intro i
            constructor
            · intro hi
              have hiS : i ∈ s.missing := by
                rw [← hmemsplit]
                exact List.mem_append_left _ hi
              obtain ⟨g', hg'⟩ := (hmem i).mp hiS
              have hne : index ≠ i := fun hcon => hnotin (hcon ▸ hi)
              exact ⟨g', by rw [List.getElem?_set_ne hne]; exact hg'⟩
            · intro hfree
              obtain ⟨g', hg'⟩ := hfree
              by_cases hie : i = index
              · subst hie
                have hlt2 : i < s.vec.length := by
                  rcases List.getElem?_eq_some_iff.mp hidx with ⟨hl, -⟩
                  exact hl
                rw [List.getElem?_set_self hlt2] at hg'
                simp at hg'
              · rw [List.getElem?_set_ne (fun hcon => hie hcon.symm)] at hg'
                have hiS := (hmem i).mpr ⟨g', hg'⟩
                rw [← hmemsplit] at hiS
                rcases List.mem_append.mp hiS with hin | hin
                · exact hin
                · simp at hin
                  exact absurd hin hie

theorem OrderedVec.remove_success_inv {T : Type} {s : OrderedVec T} {v : T}
    {id : ℕ} (hInv : s.Inv) (hsucc : (s.remove id).1 = some v) :
    (s.remove id).2.Inv := by
  obtain ⟨hnd, hmem⟩ := hInv
  cases hg : s.vec[(from_id id).1]? with
  | none => simp [OrderedVec.remove, hg] at hsucc
  | some cell =>
      obtain ⟨c, ver⟩ := cell
      by_cases hv : (from_id id).2 ≠ ver
      · simp [OrderedVec.remove, hg, hv] at hsucc
      · push_neg at hv
        have hrem : s.remove id =
            (c, ⟨s.vec.set (from_id id).1 (none, ver),
              s.missing ++ [(from_id id).1]⟩) := by
          simp [OrderedVec.remove, hg, hv]
        rw [hrem] at hsucc
        rw [hrem]
        have hc : c = some v := hsucc
        have hnotin : (from_id id).1 ∉ s.missing := by
          intro hin
          obtain ⟨g', hg'⟩ := (hmem _).mp hin
          rw [hg] at hg'
          simp [hc] at hg'
        constructor
        · exact List.nodup_append.mpr
            ⟨hnd, List.nodup_singleton _,
             fun a ha hb => by
               simp at hb
               exact hnotin (hb ▸ ha)⟩
        · intro i
          constructor
          · intro hi
            rcases List.mem_append.mp hi with hin | hin
            · obtain ⟨g', hg'⟩ := (hmem i).mp hin
              have hne : (from_id id).1 ≠ i :=
                fun hcon => hnotin (hcon ▸ hin)
              exact ⟨g', by rw [List.getElem?_set_ne hne]; exact hg'⟩
            · simp at hin
              subst hin
              have hl2 : (from_id id).1 < s.vec.length := by
                rcases List.getElem?_eq_some_iff.mp hg with ⟨hl, -⟩
                exact hl
              exact ⟨ver, by rw [List.getElem?_set_self hl2]⟩
          · intro hfree
            obtain ⟨g', hg'⟩ := hfree
            by_cases hie : i = (from_id id).1
            · subst hie
              exact List.mem_append_right _ (by simp)
            · rw [List.getElem?_set_ne (fun hcon => hie hcon.symm)] at hg'
              exact List.mem_append_left _ ((hmem i).mpr ⟨g', hg'⟩)

theorem OrderedVec.remove_index_success_inv {T : Type} {s : OrderedVec T}
    {v : T} {i0 : ℕ} (hInv : s.Inv) (hsucc : (s.remove_index i0).1 = some v) :
    (s.remove_index i0).2.Inv := by
  obtain ⟨hnd, hmem⟩ := hInv
  cases hg : s.vec[i0]? with
  | none => simp [OrderedVec.remove_index, hg] at hsucc
  | some cell =>
      obtain ⟨c, ver⟩ := cell
      have hrem : s.remove_index i0 =
          (c, ⟨s.vec.set i0 (none, ver), s.missing ++ [i0]⟩) := by
        simp [OrderedVec.remove_index, hg]
      rw [hrem] at hsucc
      rw [hrem]
      have hc : c = some v := hsucc
      have hnotin : i0 ∉ s.missing := by
        intro hin
        obtain ⟨g', hg'⟩ := (hmem _).mp hin
        rw [hg] at hg'
        simp [hc] at hg'
      constructor
      · exact List.nodup_append.mpr
          ⟨hnd, List.nodup_singleton _,
           fun a ha hb => by
             simp at hb
             exact hnotin (hb ▸ ha)⟩
      · intro i
        constructor
        · intro hi
          rcases List.mem_append.mp hi with hin | hin
          · obtain ⟨g', hg'⟩ := (hmem i).mp hin
            have hne : i0 ≠ i := fun hcon => hnotin (hcon ▸ hin)
            exact ⟨g', by rw [List.getElem?_set_ne hne]; exact hg'⟩
          · simp at hin
            subst hin
            have hl2 : i < s.vec.length := by
              rcases List.getElem?_eq_some_iff.mp hg with ⟨hl, -⟩
              exact hl
            exact ⟨ver, by rw [List.getElem?_set_self hl2]⟩
        · intro hfree
          obtain ⟨g', hg'⟩ := hfree
          by_cases hie : i = i0
          · subst hie
            exact List.mem_append_right _ (by simp)
          · rw [List.getElem?_set_ne (fun hcon => hie hcon.symm)] at hg'
            exact List.mem_append_left _ ((hmem i).mpr ⟨g', hg'⟩)

theorem OrderedVec.remove_all_inv {T : Type} :
    ∀ (ids : List ℕ) {s s' : OrderedVec T},
      s.Inv → s.remove_all ids = some s' → s'.Inv := by
  intro ids
  induction ids with
  | nil =>
      intro s s' hInv h
      simp only [OrderedVec.remove_all, Option.some.injEq] at h
      exact h ▸ hInv
  | cons id rest ih =>
      intro s s' hInv h
      simp only [OrderedVec.remove_all] at h
      cases hr : s.remove id with
      | mk fst snd =>
          rw [hr] at h
          cases fst with
          | none => simp at h
          | some v =>
              have hfst : (s.remove id).1 = some v := by rw [hr]
              have hsInv : snd.Inv := by
                have h2 := OrderedVec.remove_success_inv hInv hfst
                rw [hr] at h2
                exact h2
              exact ih hsInv h

theorem lookup_filter_length {α : Type} (p : α → Bool) :
    ∀ l : List α,
      ((List.range l.length).filter
          (fun i => (l[i]?.map p).getD false)).length = l.countP p := by
  intro l
  induction l with
  | nil => rfl
  | cons a t ih =>
      have hf : (fun i => (((a :: t)[i]?).map p).getD false) ∘ Nat.succ =
          fun i => ((t[i]?).map p).getD false := by
        funext i
        simp
      rw [List.length_cons, List.range_succ_eq_map, List.filter_cons,
        List.filter_map, hf]
      by_cases hpa : p a = true
      · simp only [List.getElem?_cons_zero, Option.map_some', Option.getD_some,
          hpa, if_true, List.length_cons, List.length_map, ih,
          List.countP_cons]
      · simp only [List.getElem?_cons_zero, Option.map_some', Option.getD_some,
          hpa, List.countP_cons]
        simp only [if_neg (by simp [hpa] : ¬(false = true)), List.length_map,
          ih]
        simp

theorem OrderedVec.free_at_eq {T : Type} (s : OrderedVec T) (i : ℕ) :
    s.free_at i = ((s.vec[i]?).map (fun c => c.1.isNone)).getD false := by
  cases h : s.vec[i]? with
  | none => simp [OrderedVec.free_at, h]
  | some c =>
      obtain ⟨val, g⟩ := c
      cases val with
      | none => simp [OrderedVec.free_at, h]
      | some x => simp [OrderedVec.free_at, h]

theorem OrderedVec.missing_length_eq {T : Type} {s : OrderedVec T}
    (hInv : s.Inv) :
    s.missing.length = s.vec.countP (fun c => c.1.isNone) := by
  obtain ⟨hnd, hmem⟩ := hInv
  have hnd2 : s.free_idx.Nodup := (List.nodup_range _).filter _
  have hiff : ∀ i, i ∈ s.missing ↔ i ∈ s.free_idx := by
    intro i
    rw [hmem i]
    unfold OrderedVec.free_idx
    rw [List.mem_filter, List.mem_range]
    constructor
    · rintro ⟨g, hg⟩
      have hlt : i < s.vec.length := by
        rcases List.getElem?_eq_some_iff.mp hg with ⟨hl, -⟩
        exact hl
      exact ⟨hlt, by simp only [OrderedVec.free_at, hg]⟩
    · rintro ⟨hlt, hfa⟩
      cases h : s.vec[i]? with
      | none =>
          rw [OrderedVec.free_at_eq, h] at hfa
          simp at hfa
      | some c =>
          obtain ⟨val, g⟩ := c
          cases val with
          | none => exact ⟨g, h⟩
          | some x =>
              rw [OrderedVec.free_at_eq, h] at hfa
              simp at hfa
  have hperm : s.missing.Perm s.free_idx :=
    (List.perm_ext_iff_of_nodup hnd hnd2).mpr hiff
  rw [hperm.length_eq]
  unfold OrderedVec.free_idx
  rw [List.filter_congr (fun i _ => s.free_at_eq i)]
  exact lookup_filter_length (fun c => c.1.isNone) s.vec

theorem countP_isSome_isNone_split {T : Type} :
    ∀ l : List (Option T × ℕ),
      l.length = l.countP (fun c => c.1.isSome) +
        l.countP (fun c => c.1.isNone) := by
  intro l
  induction l with
  | nil => rfl
  | cons a t ih =>
      cases ha : a.1 with
      | none =>
          simp [List.countP_cons, ha, ih]
          omega
      | some x =>
          simp [List.countP_cons, ha, ih]
          omega

theorem OrderedVec.Inv_count {T : Type} {s : OrderedVec T} (hInv : s.Inv) :
    s.count = s.vec.countP (fun c => c.1.isSome) := by
  have hm := OrderedVec.missing_length_eq hInv
  have hsplit := countP_isSome_isNone_split s.vec
  unfold OrderedVec.count
  omega

/-- C7 counterexample: the invariant is *not* preserved by every sequence
of public operations.  From `new()`, `push_shove 0` then `remove` with the
stale handle `2 ^ 32` (index 0, generation 1 — generation mismatch, a
normal call the public API allows) reaches the state with slots
`[(some 0, 0)]` and `missing = [0]`: index 0 is in `missing` although its
slot is occupied, so `missing` no longer contains exactly the indices of
`None` slots (and `count() = 0` despite one occupied slot). -/
theorem invariant_fails_after_stale_remove :
    OrderedVec.Reaches (⟨[(some 0, 0)], [0]⟩ : OrderedVec Nat) ∧
    ¬ (⟨[(some 0, 0)], [0]⟩ : OrderedVec Nat).Inv := by
  constructor
  · have h1 : OrderedVec.Reaches (⟨[(some 0, 0)], []⟩ : OrderedVec Nat) :=
      OrderedVec.Reaches.push_shove 0 OrderedVec.Reaches.new
        (show (⟨[], []⟩ : OrderedVec Nat).push_shove 0 =
          some (⟨[(some 0, 0)], []⟩, to_id 0 0) by decide)
    have h2 := OrderedVec.Reaches.remove (2 ^ 32) h1
    have he : ((⟨[(some 0, 0)], []⟩ : OrderedVec Nat).remove (2 ^ 32)).2 =
        (⟨[(some 0, 0)], [0]⟩ : OrderedVec Nat) := by decide
    rwa [he] at h2
  · intro hInv
    obtain ⟨-, hmem⟩ := hInv
    have h0 := (hmem 0).mp (by simp)
    simp only [OrderedVec.slot_free] at h0
    obtain ⟨g, hg⟩ := h0
    simp at hg

/-- C7 (amended): the invariant — `missing` holds exactly the indices of
`None` slots, without duplicates, and `count()` equals the number of
occupied slots — holds in every state reachable from `new()` by
`push_shove`, `clear`, and removals that *succeed* (`remove` /
`remove_index` returning `Some`, `my_drain` completing without a panic);
stale removals are excluded, since they push an occupied or duplicate
index onto `missing` (see the counterexample). -/
theorem valid_reachable_invariant {T : Type} (s : OrderedVec T)
    (h : OrderedVec.ReachesValid s) :
    s.Inv ∧ s.count = s.vec.countP (fun c => c.1.isSome) := by
  have hInv : s.Inv := by
    induction h with
    | new => exact OrderedVec.Inv_nil
    | push_shove v hr hps ih => exact OrderedVec.push_shove_inv v ih hps
    | remove id hr hsucc ih => exact OrderedVec.remove_success_inv ih hsucc
    | remove_index i hr hsucc ih =>
        exact OrderedVec.remove_index_success_inv ih hsucc
    | clear hr ih => exact OrderedVec.Inv_nil
    | my_drain f hr hmd ih => exact OrderedVec.remove_all_inv _ ih hmd
  exact ⟨hInv, OrderedVec.Inv_count hInv⟩

theorem valid_reachable_invariant_witness :
    (⟨[(some 5, 0)], []⟩ : OrderedVec Nat).Inv ∧
    (⟨[(some 5, 0)], []⟩ : OrderedVec Nat).count =
      (⟨[(some 5, 0)], []⟩ : OrderedVec Nat).vec.countP
        (fun c => c.1.isSome) :=
  valid_reachable_invariant ⟨[(some 5, 0)], []⟩
    (OrderedVec.ReachesValid.push_shove 5 OrderedVec.ReachesValid.new
      (show (⟨[], []⟩ : OrderedVec Nat).push_shove 5 =
        some (⟨[(some 5, 0)], []⟩, to_id 0 0) by decide))
